import Mathlib

/-!
Verification of `fairseq/modules/reducer.py` (the `Reducer` module of the
reformer repository): a shallow embedding of the data model and of the three
pooling strategies (`max`, `attn`, `softmax`), together with theorems about
the strategy registry, the incremental-state cache, masking, probability
normalisation, and the training/decoding equivalence of the target branches.

Tensors `[T, S, B, C]` are embedded as lists of time slices (for the target
branches, where `torch.cat` grows the time axis) or as functions over `Fin`
indices (for the source branches).  Scalar entries are modelled by an
arbitrary type `α` where the code only moves data around, by a linear order
where the code compares (`torch.max`), and by `ℝ` where the code computes
(`exp`, `/`, `*`).  The float value `-inf` produced by `masked_fill` is
modelled by `⊥` in `WithBot _`.
-/

namespace Reformer

/-- A `[S, B, C]` time slice of a representation tensor. -/
abbrev Slice (α : Type) (S B C : ℕ) : Type := Fin S → Fin B → Fin C → α

/-- A `[t, S, B, C]` representation tensor, as the list of its `t` time
slices; `torch.cat(dim=0)` is list append. -/
abbrev Tens (α : Type) (S B C : ℕ) : Type := List (Slice α S B C)

/-- The all-zero slice, used only as an out-of-range default. -/
def Slice.dflt {α : Type} [Inhabited α] {S B C : ℕ} : Slice α S B C :=
  fun _ _ _ => default

/-- The value stored under the buffer name `'repr_state'` for one `Reducer`
instance: a python dict which may or may not contain the key `'prev_repr'`
(`none` is the empty dict `{}`). -/
abbrev ReprDict (α : Type) (S B C : ℕ) : Type := Option (Tens α S B C)

/-- The slot of one `Reducer` instance inside a non-`None` incremental-state
container: `none` when the instance's key `'repr_state'` is absent from the
container, `some d` when it maps to the dict `d`.

Modelled from the spec: `utils.get_incremental_state` /
`utils.set_incremental_state` are not under `src/`; per the spec's read/write
contract the container is a mutable map keyed by a stable identity of the
owning instance and then by the fixed buffer name, so the per-instance view
is exactly an optional stored value. -/
abbrev Container (α : Type) (S B C : ℕ) : Type := Option (ReprDict α S B C)

/-- `Reducer._get_input_buffer`: read the stored dict, `or {}` — a missing
key and a stored empty dict both give the empty dict (`none`). -/
def getInputBuffer {α : Type} {S B C : ℕ} (c : Container α S B C) :
    ReprDict α S B C :=
  c.join

/-- `Reducer._prepare_repr`: with a non-`None` incremental state, concatenate
the buffered `prev_repr` (when present) before `x` along the time axis and
store the result back as `prev_repr`; with `incremental_state=None`, return
`x` unchanged and touch nothing.  The updated per-instance view of the
container is returned as the second component. -/
def prepareRepr {α : Type} {S B C : ℕ} (x : Tens α S B C)
    (inc : Option (Container α S B C)) :
    Tens α S B C × Option (Container α S B C) :=
  match inc with
  | none => (x, none)
  | some c =>
    let saved := getInputBuffer c
    let x' := match saved with
      | some prev => prev ++ x
      | none => x
    (x', some (some (some x')))

/-- `index_select(2, new_order)` on one `[S, B, C]` slice: dim 2 of the
buffered `[t, S, B, C]` tensor is the batch axis, dim 1 of the slice. -/
def Slice.reorder {α : Type} {S B C : ℕ} (sl : Slice α S B C)
    (order : Fin B → Fin B) : Slice α S B C :=
  fun s b c => sl s (order b) c

/-- `Reducer.reorder_incremental_state`: read the buffer dict (`or {}` makes
it a dict, never `None`, so the `is not None` guard always passes),
`index_select` the batch axis of every stored tensor, and store the dict
back — also when it is empty. -/
def reorderState {α : Type} {S B C : ℕ} (c : Container α S B C)
    (order : Fin B → Fin B) : Container α S B C :=
  let inputBuffer := getInputBuffer c
  some (inputBuffer.map (fun buf => buf.map (fun sl => sl.reorder order)))

/-- The `prev_repr` tensor currently stored for the instance, if any
(`none` when the incremental state is `None`, the instance's key is absent,
or the stored dict has no `'prev_repr'`). -/
def storedBuffer {α : Type} {S B C : ℕ}
    (inc : Option (Container α S B C)) : Option (Tens α S B C) :=
  inc.join.join

/-- One `prepare` call per element of `slices`, each supplying a
`[1, S, B, C]` tensor, threading the incremental-state container. -/
def prepareCalls {α : Type} {S B C : ℕ} (slices : List (Slice α S B C))
    (inc : Option (Container α S B C)) : Option (Container α S B C) :=
  slices.foldl (fun st sl => (prepareRepr [sl] st).2) inc

/-! ## Strategy registry and construction -/

/-- The keys of `_VALID_REDUCER`, as populated by the three
`@register_reducer(...)` decorators at import time. -/
def VALID_REDUCER : List String := ["max", "attn", "softmax"]

/-- The fatal errors the module can raise: the `KeyError` of
`self.VALID_REDUCER[self.method]` in `__init__`, and the
`NotImplementedError` of the `attn` target branch. -/
inductive ReducerError : Type
  | keyError (name : String)
  | notImplementedError (msg : String)
  deriving DecidableEq

/-- The configuration a successfully constructed `Reducer` holds. -/
structure Reducer : Type where
  method : String
  reduce_src : Bool
  deriving DecidableEq

/-- `Reducer.__init__`: looks the method up in `VALID_REDUCER` and calls the
factory; an unregistered name raises `KeyError` here, before any forward
call can happen. -/
def mkReducer (method : String) (reduce_src : Bool) :
    Except ReducerError Reducer :=
  if method ∈ VALID_REDUCER then .ok ⟨method, reduce_src⟩
  else .error (.keyError method)

/-! ## Target branches

A target-branch call returns a `[t, S, B, C]` tensor in training mode
(`mask` non-`None`) and a `[S, B, C]` tensor in decoding mode
(`mask = None`); `TgtOut` is the sum of the two shapes.  The `[T, T]`
float mask tensor itself is modelled as `TgtMask`; target branches only
test it against `None`. -/

inductive TgtOut (α : Type) (S B C : ℕ) : Type
  | dec (sl : Slice α S B C)
  | train (t : Tens α S B C)

/-- The `[T, T]` target mask tensor; its entries are never read. -/
abbrev TgtMask : Type := ℕ → ℕ → ℝ

/-- `torch.max` over dim 0 of a nonempty list of scalars (`x.max(dim=0)[0]`
per coordinate); the empty case never occurs after `_prepare_repr`. -/
def listMaxD {α : Type} [LinearOrder α] [Inhabited α] : List α → α
  | [] => default
  | a :: l => l.foldl max a

/-- Decoding branch of the `max` strategy after `prepare`: the maximum over
the entire buffered time axis, per `[S, B, C]` coordinate. -/
def maxDecodeOut {α : Type} [LinearOrder α] [Inhabited α] {S B C : ℕ}
    (x : Tens α S B C) : Slice α S B C :=
  fun s b c => listMaxD (x.map (fun sl => sl s b c))

/-- Row `i` of the training loop of the `max` strategy:
`out[0] = x[0]`, `out[i] = torch.max(x[i], out[i-1])` elementwise. -/
def maxCumRow {α : Type} [LinearOrder α] [Inhabited α] {S B C : ℕ}
    (x : Tens α S B C) : ℕ → Slice α S B C
  | 0 => x.getD 0 Slice.dflt
  | i + 1 => fun s b c =>
      max (x.getD (i + 1) Slice.dflt s b c) (maxCumRow x i s b c)

/-- Training branch of the `max` strategy: the loop
`out = x[:1]; out = torch.cat((out, max(x[i], out[i-1]).unsqueeze(0)))`
builds the `[T, S, B, C]` tensor of cumulative rows. -/
def maxTrainOut {α : Type} [LinearOrder α] [Inhabited α] {S B C : ℕ}
    (x : Tens α S B C) : Tens α S B C :=
  (List.range x.length).map (maxCumRow x)

/-- `reduce_tgt` of the `max` strategy: prepare the (possibly buffered)
representation, then branch on `mask is None`. -/
def reduceTgtMax {α : Type} [LinearOrder α] [Inhabited α] {S B C : ℕ}
    (x : Tens α S B C) (mask : Option TgtMask)
    (inc : Option (Container α S B C)) :
    TgtOut α S B C × Option (Container α S B C) :=
  let p := prepareRepr x inc
  match mask with
  | none => (TgtOut.dec (maxDecodeOut p.1), p.2)
  | some _ => (TgtOut.train (maxTrainOut p.1), p.2)

/-- One decoding session of the `max` target branch: each incoming slice is
fed as a `[1, S, B, C]` tensor with `mask = None`, threading one shared
incremental-state container through the calls. -/
def runDecodeMax {α : Type} [LinearOrder α] [Inhabited α] {S B C : ℕ} :
    List (Slice α S B C) → Option (Container α S B C) → List (TgtOut α S B C)
  | [], _ => []
  | sl :: rest, inc =>
    let r := reduceTgtMax [sl] none inc
    r.1 :: runDecodeMax rest r.2

/-- `∑ i, softmax(l)_i * l_i` for a list of scalars: one coordinate of
`torch.sum(F.softmax(x, dim=0) * x, dim=0)`.  Real softmax models float
softmax over finite inputs exactly (up to rounding). -/
noncomputable def softListOut (l : List ℝ) : ℝ :=
  (l.map (fun v => Real.exp v / (l.map Real.exp).sum * v)).sum

/-- Decoding branch of the `softmax` strategy after `prepare`: softmax over
the entire buffered time axis, then the weighted sum over it. -/
noncomputable def softDecodeOut {S B C : ℕ} (x : Tens ℝ S B C) :
    Slice ℝ S B C :=
  fun s b c => softListOut (x.map (fun sl => sl s b c))

/-- Row `i` of the training loop of the `softmax` strategy: `out[0] = x[0]`,
`out[i] = torch.sum(F.softmax(x[:i+1], dim=0) * x[:i+1], dim=0)`. -/
noncomputable def softTrainRow {S B C : ℕ} (x : Tens ℝ S B C) :
    ℕ → Slice ℝ S B C
  | 0 => x.getD 0 Slice.dflt
  | i + 1 => fun s b c =>
      softListOut ((x.take (i + 2)).map (fun sl => sl s b c))

/-- Training branch of the `softmax` strategy: the `torch.cat` loop builds
the `[T, S, B, C]` tensor of prefix softmax-weighted sums. -/
noncomputable def softTrainOut {S B C : ℕ} (x : Tens ℝ S B C) :
    Tens ℝ S B C :=
  (List.range x.length).map (softTrainRow x)

/-- `reduce_tgt` of the `softmax` strategy. -/
noncomputable def reduceTgtSoftmax {S B C : ℕ} (x : Tens ℝ S B C)
    (mask : Option TgtMask) (inc : Option (Container ℝ S B C)) :
    TgtOut ℝ S B C × Option (Container ℝ S B C) :=
  let p := prepareRepr x inc
  match mask with
  | none => (TgtOut.dec (softDecodeOut p.1), p.2)
  | some _ => (TgtOut.train (softTrainOut p.1), p.2)

/-- One decoding session of the `softmax` target branch. -/
noncomputable def runDecodeSoftmax {S B C : ℕ} :
    List (Slice ℝ S B C) → Option (Container ℝ S B C) → List (TgtOut ℝ S B C)
  | [], _ => []
  | sl :: rest, inc =>
    let r := reduceTgtSoftmax [sl] none inc
    r.1 :: runDecodeSoftmax rest r.2

/-- `reduce_tgt` of the `attn` strategy: raises `NotImplementedError`
unconditionally, before looking at any argument. -/
def reduceTgtAttn {S B C : ℕ} (_x : Tens ℝ S B C) (_mask : Option TgtMask)
    (_inc : Option (Container ℝ S B C)) :
    Except ReducerError (TgtOut ℝ S B C × Option (Container ℝ S B C)) :=
  .error (.notImplementedError "attn consumes too much memory")

/-! ## Source branches

Source branches never touch the incremental state and never `cat`, so a
`[T, S, B, C]` input is embedded as a function of its four indices.  The
source mask is a `[B, S]` byte tensor; `masked_fill(mask, -inf)` sends the
scalars into `WithBot _`, whose `⊥` is the float `-inf` (when `mask` is
`None` the entries are simply coerced, which changes no comparison). -/

abbrev T4 (α : Type) (T S B C : ℕ) : Type :=
  Fin T → Fin S → Fin B → Fin C → α

abbrev T3 (α : Type) (T B C : ℕ) : Type := Fin T → Fin B → Fin C → α

/-- The `[B, S]` source mask; `true` marks a padded position. -/
abbrev SrcMask (B S : ℕ) : Type := Fin B → Fin S → Bool

/-- `mask.transpose(0, 1).unsqueeze(0).unsqueeze(-1)` broadcast over `T`
and `C`, then `masked_fill(mask, float('-inf'))`: position `(t, s, b, c)`
becomes `-inf` iff `mask[b][s]`. -/
def maskedWeights {α : Type} {T S B C : ℕ} (w : T4 α T S B C)
    (mask : Option (SrcMask B S)) : T4 (WithBot α) T S B C :=
  match mask with
  | some m => fun t s b c => if m b s then ⊥ else ↑(w t s b c)
  | none => fun t s b c => ↑(w t s b c)

/-- `reduce_src` of the `max` strategy: `masked_fill` (when a mask is
given), then `x.max(dim=1)[0]`, the supremum over the source axis. -/
def reduceSrcMax {α : Type} [LinearOrder α] {T S B C : ℕ} (x : T4 α T S B C)
    (mask : Option (SrcMask B S)) : T3 (WithBot α) T B C :=
  fun t b c => Finset.univ.sup (fun s => maskedWeights x mask t s b c)

/-- `exp` extended to `-inf`: `exp(-inf) = 0`, the limit the float kernel
realises inside `F.softmax`. -/
noncomputable def expExt (w : WithBot ℝ) : ℝ :=
  WithBot.recBotCoe 0 Real.exp w

/-- `F.softmax(weights, dim=1)` on possibly `-inf`-filled logits:
`exp(w_s) / ∑ exp(w_t)`.  Over the reals this equals the max-shifted float
formula wherever the latter is NaN-free. -/
noncomputable def srcProb {T S B C : ℕ} (w : T4 (WithBot ℝ) T S B C) :
    T4 ℝ T S B C :=
  fun t s b c => expExt (w t s b c) / ∑ s' : Fin S, expExt (w t s' b c)

/-- The float softmax yields NaN at `(t, ·, b, c)` exactly when every logit
in the row is `-inf`, i.e. when the denominator `∑ exp` vanishes (`0/0`);
`assert torch.isnan(prob).byte().any() == 0` checks its absence. -/
def srcProbNaNAt {T S B C : ℕ} (w : T4 (WithBot ℝ) T S B C)
    (t : Fin T) (b : Fin B) (c : Fin C) : Prop :=
  ∑ s' : Fin S, expExt (w t s' b c) = 0

/-- `F.linear(x, self.weights)` over the channel axis:
`out[t, s, b, i] = ∑ j, weights[i, j] * x[t, s, b, j]`.  `self.weights` is
the `[C, C]` parameter the `attn` factory attaches to the instance. -/
def attnLogits {T S B C : ℕ} (weights : Fin C → Fin C → ℝ)
    (x : T4 ℝ T S B C) : T4 ℝ T S B C :=
  fun t s b i => ∑ j : Fin C, weights i j * x t s b j

/-- `reduce_src` of the `softmax` strategy:
`torch.sum(F.softmax(masked x, dim=1) * x, dim=1)`. -/
noncomputable def reduceSrcSoftmax {T S B C : ℕ} (x : T4 ℝ T S B C)
    (mask : Option (SrcMask B S)) : T3 ℝ T B C :=
  fun t b c => ∑ s : Fin S, srcProb (maskedWeights x mask) t s b c * x t s b c

/-- `reduce_src` of the `attn` strategy: logits from `F.linear`, masked,
softmaxed over the source axis, then the weighted sum of `x`. -/
noncomputable def reduceSrcAttn {T S B C : ℕ} (weights : Fin C → Fin C → ℝ)
    (x : T4 ℝ T S B C) (mask : Option (SrcMask B S)) : T3 ℝ T B C :=
  fun t b c =>
    ∑ s : Fin S, srcProb (maskedWeights (attnLogits weights x) mask) t s b c
      * x t s b c

/-! ## Shape calculus

The rank claim is about tensor shapes, so the shape semantics of every
torch operation `reducer.py` applies is mirrored on shapes-as-lists
(`[T, S, B, C]` etc.); rank is the list length.  `masked_fill`,
`F.softmax`, `F.linear` (square weights) and the elementwise `prob * x`
preserve the shape and appear as the identity. -/

/-- A torch shape: the list of dimension sizes. -/
abbrev TShape : Type := List ℕ

/-- `x.max(dim=d)[0]` / `torch.sum(x, dim=d)`: remove dimension `d`. -/
def dimReduce (d : ℕ) (s : TShape) : TShape := s.eraseIdx d

/-- `torch.cat((a, b), dim=0)`: heads add, the remaining dims are `a`'s. -/
def cat0 (a b : TShape) : TShape := (a.headD 0 + b.headD 0) :: a.tail

/-- `x[:k]`: clamp the leading dimension to at most `k`. -/
def takePrefix (k : ℕ) (s : TShape) : TShape := min k (s.headD 0) :: s.tail

/-- `x[i]` (integer indexing): drop the leading dimension. -/
def index0 (s : TShape) : TShape := s.tail

/-- `x.unsqueeze(0)`: prepend a dimension of size 1. -/
def unsqueeze0 (s : TShape) : TShape := 1 :: s

/-- The training `torch.cat` loop on shapes: starting from `out`, perform
`n` iterations `out = cat0 out (unsqueeze0 (row i))` for `i = i₀, i₀+1, …`. -/
def trainCatLoop (row : ℕ → TShape) : ℕ → ℕ → TShape → TShape
  | 0, _, out => out
  | n + 1, i, out => trainCatLoop row n (i + 1) (cat0 out (unsqueeze0 (row i)))

/-- Shape of `reduce_src` (`max`): `masked_fill` then `max(dim=1)`. -/
def maxSrcShape (s : TShape) : TShape := dimReduce 1 s

/-- Shape of `reduce_src` (`softmax`): softmax over dim 1, `sum(dim=1)`. -/
def softSrcShape (s : TShape) : TShape := dimReduce 1 s

/-- Shape of `reduce_src` (`attn`): `F.linear`, mask, softmax, `sum(dim=1)`. -/
def attnSrcShape (s : TShape) : TShape := dimReduce 1 s

/-- Shape of the `max` target branch, decoding (`mask=None`):
`x.max(dim=0)[0]`. -/
def maxTgtDecShape (s : TShape) : TShape := dimReduce 0 s

/-- Shape of the `softmax` target branch, decoding: softmax over dim 0 and
`sum(dim=0)`. -/
def softTgtDecShape (s : TShape) : TShape := dimReduce 0 s

/-- Shape of the `max` target branch, training (`mask` non-`None`):
`out = x[:1]`, then for `i in range(1, T)`,
`out = cat((out, max(x[i], out[i-1]).unsqueeze(0)), dim=0)`. -/
def maxTgtTrainShape (s : TShape) : TShape :=
  trainCatLoop (fun _ => index0 s) (s.headD 0 - 1) 1 (takePrefix 1 s)

/-- Shape of the `softmax` target branch, training: `out = x[:1]`, then for
`i in range(1, T)`, `out = cat((out,
sum(softmax(x[:i+1], 0) * x[:i+1], 0).unsqueeze(0)), dim=0)`. -/
def softTgtTrainShape (s : TShape) : TShape :=
  trainCatLoop (fun i => dimReduce 0 (takePrefix (i + 1) s)) (s.headD 0 - 1) 1
    (takePrefix 1 s)

/-! ## Theorems -/

/-- C5: constructing a `Reducer` with a method name that is not registered
in `VALID_REDUCER` fails with the `KeyError` of the registry lookup at
construction time, for every such name and every value of the `reduce_src`
flag; construction never succeeds for such a name. -/
theorem unknown_method_fails_at_construction (method : String)
    (h : method ∉ VALID_REDUCER) (reduce_src : Bool) :
    mkReducer method reduce_src = .error (.keyError method) := by
  simp [mkReducer, h]

theorem unknown_method_fails_at_construction_witness :
    "mean" ∉ VALID_REDUCER ∧
      mkReducer "mean" true = .error (.keyError "mean") ∧
      mkReducer "mean" false = .error (.keyError "mean") :=
  ⟨by decide,
    unknown_method_fails_at_construction "mean" (by decide) true,
    unknown_method_fails_at_construction "mean" (by decide) false⟩

/-- C6: the `attn` strategy's target branch raises `NotImplementedError` on
every call, for every input tensor, mask and incremental state. -/
theorem attn_tgt_always_raises {S B C : ℕ} (x : Tens ℝ S B C)
    (mask : Option TgtMask) (inc : Option (Container ℝ S B C)) :
    reduceTgtAttn x mask inc
      = .error (.notImplementedError "attn consumes too much memory") := rfl

/-- C9: the `max` and `softmax` target branches never consult the content
of the mask, only whether it is `None`: two calls with any two non-`None`
masks return the same output and the same incremental state. -/
theorem tgt_mask_content_never_consulted {S B C : ℕ} (x : Tens ℝ S B C)
    (inc : Option (Container ℝ S B C)) (m1 m2 : TgtMask) :
    reduceTgtMax x (some m1) inc = reduceTgtMax x (some m2) inc ∧
      reduceTgtSoftmax x (some m1) inc = reduceTgtSoftmax x (some m2) inc :=
  ⟨rfl, rfl⟩

/-- C10: with `incremental_state = None`, `_prepare_repr` returns `x`
unchanged and stores nothing, so a `max` or `softmax` target call returns
exactly what the first call of a fresh session would return, and leaves no
state behind (the returned state is still `none`). -/
theorem tgt_none_incremental_state_pure {S B C : ℕ} (x : Tens ℝ S B C)
    (mask : Option TgtMask) :
    prepareRepr x (none : Option (Container ℝ S B C)) = (x, none) ∧
      reduceTgtMax x mask none = ((reduceTgtMax x mask (some none)).1, none) ∧
      reduceTgtSoftmax x mask none
        = ((reduceTgtSoftmax x mask (some none)).1, none) := by
  refine ⟨rfl, ?_, ?_⟩ <;> cases mask <;> rfl

/-- After `prepare` calls starting from a buffer holding `buf`, the stored
tensor is `buf` followed by the supplied slices, in call order. -/
theorem prepareCalls_from_buffer {α : Type} {S B C : ℕ}
    (slices : List (Slice α S B C)) (buf : Tens α S B C) :
    prepareCalls slices (some (some (some buf)))
      = some (some (some (buf ++ slices))) := by
  induction slices generalizing buf with
  | nil => simp [prepareCalls]
  | cons sl rest ih =>
    have h1 : (prepareRepr [sl] (some (some (some buf)))).2
        = some (some (some (buf ++ [sl]))) := rfl
    calc prepareCalls (sl :: rest) (some (some (some buf)))
        = prepareCalls rest (some (some (some (buf ++ [sl])))) := by
          simp [prepareCalls, List.foldl_cons, h1]
      _ = some (some (some ((buf ++ [sl]) ++ rest))) := ih (buf ++ [sl])
      _ = some (some (some (buf ++ sl :: rest))) := by simp

/-- C3: `_prepare_repr` with a non-`None` incremental state returns the
existing buffer concatenated with `x` along the time axis (or `x` itself
when no buffer exists) and stores that result back as the buffer; hence
after `n` sequential calls each supplying a `[1, S, B, C]` slice, the
stored buffer is exactly the list of the `n` slices in call order, of time
length `n`. -/
theorem prepare_concatenates_and_stores {α : Type} {S B C : ℕ}
    (x : Tens α S B C) (c : Container α S B C)
    (slices : List (Slice α S B C)) :
    (prepareRepr x (some c)
      = match getInputBuffer c with
        | some prev => (prev ++ x, some (some (some (prev ++ x))))
        | none => (x, some (some (some x)))) ∧
      storedBuffer (prepareCalls slices (some (none : Container α S B C)))
        = (if slices.isEmpty then none else some slices) ∧
      ((storedBuffer (prepareCalls slices
          (some (none : Container α S B C)))).getD []).length
        = slices.length := by
  refine ⟨?_, ?_⟩
  · cases h : getInputBuffer c <;> simp [prepareRepr, h]
  · match slices with
    | [] => exact ⟨rfl, rfl⟩
    | sl :: rest =>
      have h0 : (prepareRepr [sl] (some (none : Container α S B C))).2
          = some (some (some [sl])) := rfl
      have : prepareCalls (sl :: rest) (some (none : Container α S B C))
          = some (some (some (sl :: rest))) := by
        calc prepareCalls (sl :: rest) (some (none : Container α S B C))
            = prepareCalls rest (some (some (some [sl]))) := by
              simp [prepareCalls, List.foldl_cons, h0]
          _ = some (some (some ([sl] ++ rest))) := prepareCalls_from_buffer rest [sl]
          _ = some (some (some (sl :: rest))) := by simp
      rw [this]
      exact ⟨rfl, rfl⟩

/-- C4, counterexample: when the instance has no buffer at all (its key is
absent from the container), `reorder_incremental_state` is not a no-op on
the container: the `or {}` fallback makes the `is not None` guard pass and
an empty buffer dict is stored under the instance's key. -/
theorem reorder_no_buffer_counterexample :
    reorderState (none : Container ℚ 1 1 1) id = some none ∧
      reorderState (none : Container ℚ 1 1 1) id ≠ none :=
  ⟨rfl, by simp [reorderState]⟩

/-- C4, amended: if no `prev_repr` buffer exists, `reorderState` allocates
none — it stores the empty buffer dict under the instance's key (a change
of the container when the key was absent, a genuine no-op when the key
already held the empty dict). -/
theorem reorder_no_buffer_allocates_none {α : Type} {S B C : ℕ}
    (c : Container α S B C) (order : Fin B → Fin B) :
    (getInputBuffer c = none → reorderState c order = some none) ∧
      reorderState (some (none : ReprDict α S B C)) order = some none := by
  constructor
  · intro h
    simp [reorderState, h]
  · rfl

theorem reorder_no_buffer_allocates_none_witness :
    reorderState (none : Container ℚ 1 1 1) id = some none ∧
      reorderState (some (none : ReprDict ℚ 1 1 1)) id = some none :=
  ⟨(reorder_no_buffer_allocates_none none id).1 rfl,
    (reorder_no_buffer_allocates_none none id).2⟩

/-- The training `cat` loop only ever appends `[1, S, B, C]` rows, so it
adds its iteration count to the leading dimension. -/
theorem trainCatLoop_head (row : ℕ → TShape) (tl : List ℕ)
    (hrow : ∀ i, row i = tl) :
    ∀ (n i h₀ : ℕ), trainCatLoop row n i (h₀ :: tl) = (h₀ + n) :: tl := by
  intro n
  induction n with
  | zero => intro i h₀; simp [trainCatLoop]
  | succ n ih =>
    intro i h₀
    have hcat : cat0 (h₀ :: tl) (unsqueeze0 (row i)) = (h₀ + 1) :: tl := by
      simp [cat0, unsqueeze0, hrow i]
    calc trainCatLoop row (n + 1) i (h₀ :: tl)
        = trainCatLoop row n (i + 1) ((h₀ + 1) :: tl) := by
          simp only [trainCatLoop, hcat]
      _ = (h₀ + 1 + n) :: tl := ih (i + 1) (h₀ + 1)
      _ = (h₀ + (n + 1)) :: tl := by
          have harith : h₀ + 1 + n = h₀ + (n + 1) := by omega
          rw [harith]

/-- C2, counterexample: on the rank-4 input `[2, 3, 4, 5]`, the `max`
target branch in training mode (`mask` non-`None`) returns a rank-4
`[2, 3, 4, 5]` tensor, not a rank-3 one — the `T` axis is not removed. -/
theorem rank_claim_counterexample :
    maxTgtTrainShape [2, 3, 4, 5] = [2, 3, 4, 5] ∧
      (maxTgtTrainShape [2, 3, 4, 5]).length ≠ 3 := by decide

/-- C2, amended: every strategy's source branch removes the `S` axis
(rank 3), the `max` and `softmax` target branches in decoding mode
(`mask = None`, input not concatenated to a buffer) collapse the `T` axis
(rank 3), but in training mode (`mask` non-`None`) they return a full
rank-4 `[T, S, B, C]` tensor of per-position reductions; the `attn` target
branch returns no tensor at all (it always raises). -/
theorem rank_property_amended (T S B C : ℕ) :
    maxSrcShape [T, S, B, C] = [T, B, C] ∧
      softSrcShape [T, S, B, C] = [T, B, C] ∧
      attnSrcShape [T, S, B, C] = [T, B, C] ∧
      maxTgtDecShape [T, S, B, C] = [S, B, C] ∧
      softTgtDecShape [T, S, B, C] = [S, B, C] ∧
      maxTgtTrainShape [T, S, B, C] = [T, S, B, C] ∧
      softTgtTrainShape [T, S, B, C] = [T, S, B, C] := by
  refine ⟨rfl, rfl, rfl, rfl, rfl, ?_, ?_⟩
  · have h := trainCatLoop_head (fun _ => index0 [T, S, B, C]) [S, B, C]
      (fun _ => rfl) (T - 1) 1 (min 1 T)
    simp only [maxTgtTrainShape, takePrefix, List.headD, List.tail_cons] at h ⊢
    rw [h]
    have : min 1 T + (T - 1) = T := by omega
    rw [this]
  · have h := trainCatLoop_head
      (fun i => dimReduce 0 (takePrefix (i + 1) [T, S, B, C])) [S, B, C]
      (fun i => rfl) (T - 1) 1 (min 1 T)
    simp only [softTgtTrainShape, takePrefix, List.headD, List.tail_cons] at h ⊢
    rw [h]
    have : min 1 T + (T - 1) = T := by omega
    rw [this]

/-- C7: for the `max` strategy's source branch with a non-`None` mask, each
output entry is the maximum of `x` over exactly the unmasked source
positions of its batch row; a fully masked batch row yields `-inf` (`⊥`).
The source axis has size `S + 1 ≥ 1`, as `torch.max` requires. -/
theorem max_src_masking_correct {T S B C : ℕ} (x : T4 ℝ T (S + 1) B C)
    (m : SrcMask B (S + 1)) (t : Fin T) (b : Fin B) (c : Fin C) :
    reduceSrcMax x (some m) t b c
      = (Finset.univ.filter (fun s : Fin (S + 1) => ¬ m b s)).sup
          (fun s => ((x t s b c : ℝ) : WithBot ℝ)) ∧
      ((∀ s, m b s = true) → reduceSrcMax x (some m) t b c = ⊥) := by
  have hmain : reduceSrcMax x (some m) t b c
      = (Finset.univ.filter (fun s : Fin (S + 1) => ¬ m b s)).sup
          (fun s => ((x t s b c : ℝ) : WithBot ℝ)) := by
    have hsplit : (Finset.univ : Finset (Fin (S + 1)))
        = Finset.univ.filter (fun s => m b s)
          ∪ Finset.univ.filter (fun s => ¬ m b s) :=
      (Finset.filter_union_filter_neg_eq _ _).symm
    have hmasked : (Finset.univ.filter (fun s : Fin (S + 1) => m b s)).sup
        (fun s => maskedWeights x (some m) t s b c) = ⊥ := by
      apply (Finset.sup_eq_bot_iff _ _).mpr
      intro s hs
      have : m b s := by simpa using (Finset.mem_filter.mp hs).2
      simp [maskedWeights, this]
    have hun : (Finset.univ.filter (fun s : Fin (S + 1) => ¬ m b s)).sup
        (fun s => maskedWeights x (some m) t s b c)
        = (Finset.univ.filter (fun s : Fin (S + 1) => ¬ m b s)).sup
          (fun s => ((x t s b c : ℝ) : WithBot ℝ)) := by
      apply Finset.sup_congr rfl
      intro s hs
      have : ¬ m b s := by simpa using (Finset.mem_filter.mp hs).2
      simp [maskedWeights, this]
    calc Finset.univ.sup (fun s => maskedWeights x (some m) t s b c)
        = (Finset.univ.filter (fun s : Fin (S + 1) => m b s)
            ∪ Finset.univ.filter (fun s : Fin (S + 1) => ¬ m b s)).sup
            (fun s => maskedWeights x (some m) t s b c) := by
          rw [Finset.filter_union_filter_neg_eq]
      _ = (Finset.univ.filter (fun s : Fin (S + 1) => m b s)).sup
            (fun s => maskedWeights x (some m) t s b c)
          ⊔ (Finset.univ.filter (fun s : Fin (S + 1) => ¬ m b s)).sup
            (fun s => maskedWeights x (some m) t s b c) := Finset.sup_union
      _ = (Finset.univ.filter (fun s : Fin (S + 1) => ¬ m b s)).sup
            (fun s => ((x t s b c : ℝ) : WithBot ℝ)) := by
          rw [hmasked, hun, bot_sup_eq]
  refine ⟨hmain, fun hall => ?_⟩
  rw [hmain]
  have hempty : (Finset.univ.filter (fun s : Fin (S + 1) => ¬ m b s)) = ∅ := by
    apply Finset.filter_eq_empty_iff.mpr
    intro s _
    simp [hall s]
  rw [hempty, Finset.sup_empty]

theorem max_src_masking_correct_witness :
    reduceSrcMax (α := ℝ) (T := 1) (S := 1) (B := 1) (C := 1)
        (fun _ _ _ _ => 0) (some (fun _ _ => true)) 0 0 0 = ⊥ :=
  (max_src_masking_correct (T := 1) (S := 0) (B := 1) (C := 1)
    (fun _ _ _ _ => 0) (fun _ _ => true) 0 0 0).2 (fun _ => rfl)

theorem expExt_nonneg (w : WithBot ℝ) : 0 ≤ expExt w := by
  induction w using WithBot.recBotCoe with
  | bot => simp [expExt]
  | coe a => simpa [expExt] using (Real.exp_pos a).le

theorem expExt_pos {w : WithBot ℝ} (h : w ≠ ⊥) : 0 < expExt w := by
  obtain ⟨a, rfl⟩ := WithBot.ne_bot_iff_exists.mp h
  simpa [expExt] using Real.exp_pos a

/-- A softmax row with at least one finite logit has a positive
normaliser, hence no NaN and probabilities summing to 1. -/
theorem srcProb_rowSum {T S B C : ℕ} (w : T4 (WithBot ℝ) T S B C)
    (t : Fin T) (b : Fin B) (c : Fin C) (h : ∃ s, w t s b c ≠ ⊥) :
    ¬ srcProbNaNAt w t b c ∧ ∑ s, srcProb w t s b c = 1 := by
  obtain ⟨s₀, hs₀⟩ := h
  have hpos : 0 < ∑ s' : Fin S, expExt (w t s' b c) :=
    Finset.sum_pos' (fun s _ => expExt_nonneg _)
      ⟨s₀, Finset.mem_univ _, expExt_pos hs₀⟩
  constructor
  · exact fun hnan => hpos.ne' hnan
  · unfold srcProb
    rw [← Finset.sum_div]
    exact div_self hpos.ne'

/-- C8: for the `softmax` and `attn` source branches, if every batch row
has an unmasked source position (or the mask is `None`), the probability
tensor computed by `F.softmax(·, dim=1)` contains no NaN — the `isnan`
assertions pass — and sums to 1 over the source axis at every remaining
index. -/
theorem src_prob_no_nan_sums_to_one {T S B C : ℕ} (x : T4 ℝ T (S + 1) B C)
    (W : Fin C → Fin C → ℝ) (mask : Option (SrcMask B (S + 1)))
    (hmask : ∀ m, mask = some m → ∀ b : Fin B, ∃ s, m b s = false)
    (t : Fin T) (b : Fin B) (c : Fin C) :
    (¬ srcProbNaNAt (maskedWeights x mask) t b c ∧
      ∑ s, srcProb (maskedWeights x mask) t s b c = 1) ∧
    (¬ srcProbNaNAt (maskedWeights (attnLogits W x) mask) t b c ∧
      ∑ s, srcProb (maskedWeights (attnLogits W x) mask) t s b c = 1) := by
  have key : ∀ y : T4 ℝ T (S + 1) B C, ∃ s, maskedWeights y mask t s b c ≠ ⊥ := by
    intro y
    cases mask with
    | none => exact ⟨0, by simp [maskedWeights]⟩
    | some m =>
      obtain ⟨s, hs⟩ := hmask m rfl b
      exact ⟨s, by simp [maskedWeights, hs]⟩
  exact ⟨srcProb_rowSum _ t b c (key x),
    srcProb_rowSum _ t b c (key (attnLogits W x))⟩

/-- Concrete inputs for the normalisation witness: a `[1,1,1,1]` zero
tensor, zero attention weights, and a mask masking nothing. -/
def witX : T4 ℝ 1 1 1 1 := fun _ _ _ _ => 0

def witW : Fin 1 → Fin 1 → ℝ := fun _ _ => 0

def witMask : Option (SrcMask 1 1) := some (fun _ _ => false)

theorem src_prob_no_nan_sums_to_one_witness :
    (¬ srcProbNaNAt (maskedWeights witX witMask) 0 0 0 ∧
      ∑ s, srcProb (maskedWeights witX witMask) 0 s 0 0 = 1) ∧
    (¬ srcProbNaNAt (maskedWeights (attnLogits witW witX) witMask) 0 0 0 ∧
      ∑ s, srcProb (maskedWeights (attnLogits witW witX) witMask) 0 s 0 0 = 1) :=
  src_prob_no_nan_sums_to_one (S := 0) witX witW witMask
    (by intro m hm b; cases hm; exact ⟨0, rfl⟩) 0 0 0

/-! ## Training/decoding equivalence -/

/-- A decoding session of the `max` target branch started on a buffer
holding `buf` outputs, at step `i`, the max-reduction of `buf` followed by
the first `i + 1` input slices. -/
theorem runDecodeMax_fromBuffer {α : Type} [LinearOrder α] [Inhabited α]
    {S B C : ℕ} (xs : List (Slice α S B C)) (buf : Tens α S B C) :
    runDecodeMax xs (some (some (some buf)))
      = (List.range xs.length).map
          (fun i => TgtOut.dec (maxDecodeOut (buf ++ xs.take (i + 1)))) := by
  induction xs generalizing buf with
  | nil => simp [runDecodeMax]
  | cons sl rest ih =>
    have hstep : reduceTgtMax [sl] none (some (some (some buf)))
        = (TgtOut.dec (maxDecodeOut (buf ++ [sl])),
            some (some (some (buf ++ [sl])))) := rfl
    calc runDecodeMax (sl :: rest) (some (some (some buf)))
        = TgtOut.dec (maxDecodeOut (buf ++ [sl]))
            :: runDecodeMax rest (some (some (some (buf ++ [sl])))) := by
          simp only [runDecodeMax, hstep]
      _ = TgtOut.dec (maxDecodeOut (buf ++ [sl]))
            :: (List.range rest.length).map
              (fun i => TgtOut.dec (maxDecodeOut ((buf ++ [sl]) ++ rest.take (i + 1)))) := by
          rw [ih]
      _ = (List.range (sl :: rest).length).map
            (fun i => TgtOut.dec (maxDecodeOut (buf ++ (sl :: rest).take (i + 1)))) := by
          rw [List.length_cons, List.range_succ_eq_map, List.map_cons,
            List.map_map]
          refine congrArg₂ List.cons rfl (List.map_congr_left ?_)
          intro i _
          simp only [Function.comp_apply, List.append_assoc]
          rfl

/-- `torch.max` over a list extended on the right. -/
theorem listMaxD_concat {α : Type} [LinearOrder α] [Inhabited α]
    (l : List α) (v : α) (h : l ≠ []) :
    listMaxD (l ++ [v]) = max (listMaxD l) v := by
  cases l with
  | nil => exact absurd rfl h
  | cons a l' => simp [listMaxD, List.foldl_append]

/-- The max over a `(i + 1)`-slice prefix is the `i`-th cumulative row of
the training loop. -/
theorem maxDecodeOut_take {α : Type} [LinearOrder α] [Inhabited α]
    {S B C : ℕ} (xs : Tens α S B C) :
    ∀ i, i < xs.length → maxDecodeOut (xs.take (i + 1)) = maxCumRow xs i := by
  intro i
  induction i with
  | zero =>
    intro h
    match xs with
    | a :: rest => rfl
  | succ i ih =>
    intro h
    have hi : i < xs.length := Nat.lt_of_succ_lt h
    have htake : xs.take (i + 1 + 1)
        = xs.take (i + 1) ++ [xs.getD (i + 1) Slice.dflt] := by
      rw [List.take_succ, List.getElem?_eq_getElem h]
      rw [List.getD_eq_getElem xs Slice.dflt h]
      rfl
    have hne : ∀ (s : Fin S) (b : Fin B) (c : Fin C),
        (xs.take (i + 1)).map (fun sl => sl s b c) ≠ [] := by
      intro s b c hnil
      have hlen := congrArg List.length hnil
      rw [List.length_map, List.length_take, List.length_nil] at hlen
      omega
    funext s b c
    show listMaxD ((xs.take (i + 1 + 1)).map (fun sl => sl s b c)) = _
    rw [htake, List.map_append]
    simp only [List.map_cons, List.map_nil]
    rw [listMaxD_concat _ _ (hne s b c)]
    have hihc : listMaxD ((xs.take (i + 1)).map (fun sl => sl s b c))
        = maxCumRow xs i s b c := by
      have := ih hi
      exact congrFun (congrFun (congrFun this s) b) c
    rw [hihc]
    show _ = max (xs.getD (i + 1) Slice.dflt s b c) (maxCumRow xs i s b c)
    rw [max_comm]

/-- A decoding session of the `softmax` target branch started on a buffer. -/
theorem runDecodeSoftmax_fromBuffer {S B C : ℕ} (xs : List (Slice ℝ S B C))
    (buf : Tens ℝ S B C) :
    runDecodeSoftmax xs (some (some (some buf)))
      = (List.range xs.length).map
          (fun i => TgtOut.dec (softDecodeOut (buf ++ xs.take (i + 1)))) := by
  induction xs generalizing buf with
  | nil => simp [runDecodeSoftmax]
  | cons sl rest ih =>
    have hstep : reduceTgtSoftmax [sl] none (some (some (some buf)))
        = (TgtOut.dec (softDecodeOut (buf ++ [sl])),
            some (some (some (buf ++ [sl])))) := rfl
    calc runDecodeSoftmax (sl :: rest) (some (some (some buf)))
        = TgtOut.dec (softDecodeOut (buf ++ [sl]))
            :: runDecodeSoftmax rest (some (some (some (buf ++ [sl])))) := by
          simp only [runDecodeSoftmax, hstep]
      _ = TgtOut.dec (softDecodeOut (buf ++ [sl]))
            :: (List.range rest.length).map
              (fun i => TgtOut.dec (softDecodeOut ((buf ++ [sl]) ++ rest.take (i + 1)))) := by
          rw [ih]
      _ = (List.range (sl :: rest).length).map
            (fun i => TgtOut.dec (softDecodeOut (buf ++ (sl :: rest).take (i + 1)))) := by
          rw [List.length_cons, List.range_succ_eq_map, List.map_cons,
            List.map_map]
          refine congrArg₂ List.cons rfl (List.map_congr_left ?_)
          intro i _
          simp only [Function.comp_apply, List.append_assoc]
          rfl

/-- The softmax-weighted sum of a single value is that value. -/
theorem softListOut_singleton (v : ℝ) : softListOut [v] = v := by
  simp [softListOut, div_self (Real.exp_ne_zero v)]

/-- The softmax-weighted reduction of a `(i + 1)`-slice prefix is the
`i`-th row of the training loop. -/
theorem softDecodeOut_take {S B C : ℕ} (xs : Tens ℝ S B C) :
    ∀ i, i < xs.length → softDecodeOut (xs.take (i + 1)) = softTrainRow xs i := by
  intro i
  cases i with
  | zero =>
    intro h
    match xs with
    | a :: rest =>
      funext s b c
      show softListOut [a s b c] = a s b c
      exact softListOut_singleton _
  | succ i =>
    intro _
    rfl

/-- C1: for the `max` and `softmax` target branches, a training call
(`mask` non-`None`, `incremental_state = None`) on the full sequence and a
decoding session (`mask = None`, one shared fresh incremental-state
container) fed the same slices one at a time produce identical values at
every position: the decoding session's step outputs are exactly the
training output's rows. -/
theorem train_decode_equivalence {S B C : ℕ} (xs : Tens ℝ S B C)
    (m : TgtMask) :
    ((reduceTgtMax xs (some m) none).1 = TgtOut.train (maxTrainOut xs) ∧
      runDecodeMax xs (some none) = (maxTrainOut xs).map TgtOut.dec) ∧
    ((reduceTgtSoftmax xs (some m) none).1 = TgtOut.train (softTrainOut xs) ∧
      runDecodeSoftmax xs (some none) = (softTrainOut xs).map TgtOut.dec) := by
  refine ⟨⟨rfl, ?_⟩, ⟨rfl, ?_⟩⟩
  · have hfresh : runDecodeMax xs (some none)
        = runDecodeMax xs (some (some (some ([] : Tens ℝ S B C)))) := by
      cases xs <;> rfl
    rw [hfresh, runDecodeMax_fromBuffer]
    unfold maxTrainOut
    rw [List.map_map]
    refine List.map_congr_left ?_
    intro i hi
    rw [List.mem_range] at hi
    simp only [Function.comp_apply, List.nil_append]
    rw [maxDecodeOut_take xs i hi]
  · have hfresh : runDecodeSoftmax xs (some none)
        = runDecodeSoftmax xs (some (some (some ([] : Tens ℝ S B C)))) := by
      cases xs <;> rfl
    rw [hfresh, runDecodeSoftmax_fromBuffer]
    unfold softTrainOut
    rw [List.map_map]
    refine List.map_congr_left ?_
    intro i hi
    rw [List.mem_range] at hi
    simp only [Function.comp_apply, List.nil_append]
    rw [softDecodeOut_take xs i hi]

end Reformer
